import Mathlib

/-!
Verification development for the `mcp-jp-fts` indexing server
(`src/mcp_jp_fts/server.py`).

The Python source is shallowly embedded: strings are `List Char`, byte
strings are `List Nat` (each element a byte value), SQLite rows are explicit
structures, and the external collaborators (the SudachiPy tokenizer, the
filesystem, the FTS engine's row set) are passed in as explicit data or
oracle functions.  Machine integers are `Nat` with explicit range
hypotheses where the Python code packs 32-bit values.  Python floats
(`mtime`, `scanned_at`) are modelled as `Int`: the code only ever compares
them, never does arithmetic on them.
-/

/-! ## UTF-8 encoding (Python `str.encode("utf-8")`) -/

/-- UTF-8 encoding of a single code point, as byte values. -/
def charUtf8 (c : Char) : List Nat :=
  let n := c.toNat
  if n < 128 then [n]
  else if n < 2048 then [192 + n / 64, 128 + n % 64]
  else if n < 65536 then [224 + n / 4096, 128 + n / 64 % 64, 128 + n % 64]
  else [240 + n / 262144, 128 + n / 4096 % 64, 128 + n / 64 % 64, 128 + n % 64]

/-- `text.encode("utf-8")` for a Python `str` modelled as `List Char`. -/
def utf8Encode (s : List Char) : List Nat :=
  s.flatMap charUtf8

theorem utf8Encode_append (a b : List Char) :
    utf8Encode (a ++ b) = utf8Encode a ++ utf8Encode b := by
  simp [utf8Encode]

/-! ## Tokenizer adapter (`server.tokenize`, server.py lines 25-60)

SudachiPy is an external collaborator: it hands back a list of morphemes,
each exposing `surface()`, `begin()` and `end()` where `begin`/`end` are
*character* indices into the input text and `surface` is the corresponding
substring.  We model that return value as explicit data and state the
collaborator's contract (`sudachiWF`) as a hypothesis. -/

/-- One SudachiPy morpheme: `surface()`, `begin()`, `end()`
(`end` is renamed `mEnd` because `end` is a Lean keyword). -/
structure SudachiMorpheme where
  surface : List Char
  mBegin : Nat
  mEnd : Nat
deriving DecidableEq, Repr

/-- SudachiPy's documented contract for its morpheme list: tokens come in
left-to-right order (`lo` is the lower bound for the next begin), spans are
well formed and inside the text, and each surface is exactly the text slice
`text[begin:end]`. -/
def sudachiWF (text : List Char) : Nat → List SudachiMorpheme → Bool
  | _, [] => true
  | lo, m :: ms =>
    decide (lo ≤ m.mBegin) && decide (m.mBegin ≤ m.mEnd) &&
    decide (m.mEnd ≤ text.length) &&
    decide (m.surface = (text.drop m.mBegin).take (m.mEnd - m.mBegin)) &&
    sudachiWF text m.mEnd ms

/-- The loop body of `tokenize`: walks the morphemes left to right carrying
`current_char_offset` and `current_byte_offset`, adding the UTF-8 byte
length of the skipped inter-token text and of each surface.
`text[current_char_offset:m.begin()]` is `(text.drop charOff).take
(m.mBegin - charOff)` (Python slices clamp, as `Nat` subtraction does). -/
def tokenizeLoop (text : List Char) :
    Nat → Nat → List SudachiMorpheme → List (List Char × Nat)
  | _, _, [] => []
  | charOff, byteOff, m :: ms =>
    let skipped := (text.drop charOff).take (m.mBegin - charOff)
    let off := byteOff + (utf8Encode skipped).length
    (m.surface, off) ::
      tokenizeLoop text m.mEnd (off + (utf8Encode m.surface).length) ms

/-- `server.tokenize`: given the input text and SudachiPy's morpheme list,
return the `(surface, byte_offset)` pairs. -/
def tokenize (text : List Char) (morphemes : List SudachiMorpheme) :
    List (List Char × Nat) :=
  tokenizeLoop text 0 0 morphemes

/-! ## Offset codec (`struct.pack` / `struct.unpack_from`)

`_update_or_remove_file` and `index_directory` pack the token byte offsets
with `struct.pack(f"<{n}I", *offsets)` (4 little-endian bytes each);
`search_documents` (lines 536-540) decodes index `i` only when
`i < len(blob) // 4`, reading the 32-bit little-endian value at byte
position `i * 4`. -/

/-- `struct.pack(f"<{n}I", *offsets)`: each offset becomes 4 little-endian
bytes.  (For an offset `≥ 2^32` the Python call raises `struct.error`;
theorems therefore carry the 32-bit range hypothesis.) -/
def encodeOffsets (offsets : List Nat) : List Nat :=
  offsets.flatMap fun x =>
    [x % 256, x / 256 % 256, x / 65536 % 256, x / 16777216 % 256]

/-- The decode step of `search_documents`: `None` unless
`tokenIndex < len(blob) // 4`, else `struct.unpack_from("<I", blob,
tokenIndex * 4)`. -/
def decodeOffset (blob : List Nat) (tokenIndex : Nat) : Option Nat :=
  if tokenIndex < blob.length / 4 then
    some (blob.getD (tokenIndex * 4) 0
      + 256 * blob.getD (tokenIndex * 4 + 1) 0
      + 65536 * blob.getD (tokenIndex * 4 + 2) 0
      + 16777216 * blob.getD (tokenIndex * 4 + 3) 0)
  else none

theorem encodeOffsets_length (offsets : List Nat) :
    (encodeOffsets offsets).length = 4 * offsets.length := by
  induction offsets with
  | nil => rfl
  | cons x xs ih => simp [encodeOffsets] at ih ⊢; omega

theorem tokenizeLoop_slice (text : List Char) (ms : List SudachiMorpheme) :
    ∀ lo : Nat, sudachiWF text lo ms = true →
      ∀ p ∈ tokenizeLoop text lo (utf8Encode (text.take lo)).length ms,
        ((utf8Encode text).drop p.2).take (utf8Encode p.1).length = utf8Encode p.1 := by
  induction ms with
  | nil => intro lo _ p hp; simp [tokenizeLoop] at hp
  | cons m ms ih =>
    intro lo hwf p hp
    simp only [sudachiWF, Bool.and_eq_true, decide_eq_true_eq] at hwf
    obtain ⟨⟨⟨⟨hlo, hbe⟩, hel⟩, hs⟩, hwf'⟩ := hwf
    have hkey1 : text.take lo ++ (text.drop lo).take (m.mBegin - lo)
        = text.take m.mBegin := by
      conv_rhs => rw [show m.mBegin = lo + (m.mBegin - lo) by omega, List.take_add]
    have hoff : (utf8Encode (text.take lo)).length
          + (utf8Encode ((text.drop lo).take (m.mBegin - lo))).length
        = (utf8Encode (text.take m.mBegin)).length := by
      rw [← List.length_append, ← utf8Encode_append, hkey1]
    have hmid : text.drop m.mBegin = m.surface ++ text.drop m.mEnd := by
      rw [hs]
      conv_lhs => rw [← List.take_append_drop (m.mEnd - m.mBegin) (text.drop m.mBegin)]
      congr 1
      rw [List.drop_drop]
      congr 1
      omega
    have hkey2 : text.take m.mBegin ++ m.surface = text.take m.mEnd := by
      rw [show m.mEnd = m.mBegin + (m.mEnd - m.mBegin) by omega, List.take_add, ← hs]
    have hoff2 : (utf8Encode (text.take m.mBegin)).length
          + (utf8Encode m.surface).length
        = (utf8Encode (text.take m.mEnd)).length := by
      rw [← List.length_append, ← utf8Encode_append, hkey2]
    simp only [tokenizeLoop, List.mem_cons] at hp
    rcases hp with hp | hp
    · subst hp
      simp only
      rw [hoff]
      have hsplit : utf8Encode text
          = utf8Encode (text.take m.mBegin)
            ++ (utf8Encode m.surface ++ utf8Encode (text.drop m.mEnd)) := by
        conv_lhs => rw [← List.take_append_drop m.mBegin text]
        rw [utf8Encode_append, hmid, utf8Encode_append]
      rw [hsplit, List.drop_left, List.take_left]
    · rw [hoff, hoff2] at hp
      exact ih m.mEnd hwf' p hp

/-- C1: every `(surface, offset)` pair returned by `tokenize` points at the
exact UTF-8 byte slice of the input equal to the surface's own UTF-8
encoding, given SudachiPy's contract on its morpheme list; the offsets are
those produced by the single left-to-right byte-accumulating pass
`tokenizeLoop`. -/
theorem tokenize_offsets_correct (text : List Char)
    (morphemes : List SudachiMorpheme)
    (hwf : sudachiWF text 0 morphemes = true) :
    ∀ p ∈ tokenize text morphemes,
      ((utf8Encode text).drop p.2).take (utf8Encode p.1).length
        = utf8Encode p.1 := by
  have h := tokenizeLoop_slice text morphemes 0 hwf
  simpa [tokenize, utf8Encode] using h

/-- ASCII, multi-byte and CRLF demo input for the tokenizer adapter:
`"あ\r\nい x"` with SudachiPy morphemes `あ` (chars 0-1), `い` (chars 3-4)
and `x` (chars 5-6); `\r\n` and the space are inter-token skipped text. -/
def demoText : List Char := "あ\r\nい x".toList

def demoMorphemes : List SudachiMorpheme :=
  [⟨['あ'], 0, 1⟩, ⟨['い'], 3, 4⟩, ⟨['x'], 5, 6⟩]

theorem tokenize_offsets_correct_witness :
    sudachiWF demoText 0 demoMorphemes = true ∧
    ∀ p ∈ tokenize demoText demoMorphemes,
      ((utf8Encode demoText).drop p.2).take (utf8Encode p.1).length
        = utf8Encode p.1 :=
  ⟨by decide, tokenize_offsets_correct demoText demoMorphemes (by decide)⟩

theorem getD_add_four (b0 b1 b2 b3 : Nat) (l : List Nat) (n : Nat) :
    (b0 :: b1 :: b2 :: b3 :: l).getD (n + 4) 0 = l.getD n 0 := by
  show (b0 :: b1 :: b2 :: b3 :: l).getD (n + 1 + 1 + 1 + 1) 0 = l.getD n 0
  simp [List.getD_cons_succ]

theorem decodeOffset_cons4 (b0 b1 b2 b3 : Nat) (rest : List Nat) (i : Nat) :
    decodeOffset (b0 :: b1 :: b2 :: b3 :: rest) (i + 1) = decodeOffset rest i := by
  unfold decodeOffset
  have hlen : (b0 :: b1 :: b2 :: b3 :: rest).length = rest.length + 4 := by simp
  rcases Nat.lt_or_ge i (rest.length / 4) with h | h
  · rw [if_pos (by rw [hlen]; omega), if_pos h]
    rw [show (i + 1) * 4 = i * 4 + 4 by ring,
      show i * 4 + 4 + 1 = i * 4 + 1 + 4 by omega,
      show i * 4 + 4 + 2 = i * 4 + 2 + 4 by omega,
      show i * 4 + 4 + 3 = i * 4 + 3 + 4 by omega,
      getD_add_four, getD_add_four, getD_add_four, getD_add_four]
  · rw [if_neg (by rw [hlen]; omega), if_neg (by omega)]

theorem decodeOffset_encodeOffsets (offsets : List Nat)
    (h : ∀ x ∈ offsets, x < 4294967296) (i : Nat) :
    decodeOffset (encodeOffsets offsets) i = offsets[i]? := by
  induction offsets generalizing i with
  | nil => cases i <;> simp [encodeOffsets, decodeOffset]
  | cons x xs ih =>
    have hx : x < 4294967296 := h x (by simp)
    have hxs : ∀ y ∈ xs, y < 4294967296 := fun y hy => h y (by simp [hy])
    have henc : encodeOffsets (x :: xs)
        = x % 256 :: x / 256 % 256 :: x / 65536 % 256 :: x / 16777216 % 256
          :: encodeOffsets xs := by
      simp [encodeOffsets]
    cases i with
    | zero =>
      rw [henc]
      unfold decodeOffset
      rw [if_pos]
      · simp only [Nat.zero_mul, Nat.zero_add, List.getD_cons_zero,
          List.getD_cons_succ, List.getElem?_cons_zero]
        congr 1
        omega
      · have := encodeOffsets_length xs
        simp only [List.length_cons]
        omega
    | succ i =>
      rw [henc, decodeOffset_cons4, ih hxs i]
      simp

/-- C2: the offset codec.  `encodeOffsets` of `n` 32-bit offsets is exactly
`4 * n` bytes, 4 little-endian bytes per offset in order; `decodeOffset`
yields no value exactly when `i * 4 + 4` overruns the blob (so any blob
written by a headerless 4-byte-per-offset encoder is decodable), and
decoding what was encoded returns the original offset at every index. -/
theorem offset_codec_spec (offsets : List Nat)
    (h : ∀ x ∈ offsets, x < 4294967296) :
    (encodeOffsets offsets).length = 4 * offsets.length ∧
    (∀ (blob : List Nat) (i : Nat),
      decodeOffset blob i = none ↔ blob.length < i * 4 + 4) ∧
    (∀ i : Nat, decodeOffset (encodeOffsets offsets) i = offsets[i]?) := by
  refine ⟨encodeOffsets_length offsets, ?_, fun i => decodeOffset_encodeOffsets offsets h i⟩
  intro blob i
  unfold decodeOffset
  split
  · rename_i hlt
    simp only [reduceCtorEq, false_iff, not_lt]
    omega
  · rename_i hge
    simp only [true_iff]
    omega

theorem offset_codec_spec_witness :
    (∀ x ∈ [0, 4, 4294967295], x < 4294967296) ∧
    ((encodeOffsets [0, 4, 4294967295]).length = 4 * ([0, 4, 4294967295] : List Nat).length ∧
     (∀ (blob : List Nat) (i : Nat),
       decodeOffset blob i = none ↔ blob.length < i * 4 + 4) ∧
     (∀ i : Nat, decodeOffset (encodeOffsets [0, 4, 4294967295]) i
        = ([0, 4, 4294967295] : List Nat)[i]?)) :=
  ⟨by decide, offset_codec_spec [0, 4, 4294967295] (by decide)⟩

/-! ## Line-number resolution (`search_documents`, server.py lines 521-556)

Per result row the code starts from `line_number = 1`; when the matched
token's index is decodable from the `token_locations` blob it opens the
file in binary mode, reads the first `offset` bytes (`f.read` returns fewer
when the file is shorter) and counts `b"\n"` (byte 10); every I/O failure
falls back to 1.  A missing blob (`None`, or `b""` which `decodeOffset`
also rejects) likewise leaves line 1. -/

def resolveLineNumber (tokenLocationsBlob : Option (List Nat)) (tokenIndex : Nat)
    (fileBytes : Option (List Nat)) : Nat :=
  match tokenLocationsBlob with
  | none => 1
  | some blob =>
    match decodeOffset blob tokenIndex with
    | none => 1
    | some off =>
      match fileBytes with
      | none => 1
      | some bs => (bs.take off).count 10 + 1

/-- The spec's multibyte example file `"あ\nい\nう"` with its SudachiPy
morphemes (newlines are inter-token skipped text). -/
def jpText : List Char := "あ\nい\nう".toList

def jpMorphemes : List SudachiMorpheme :=
  [⟨['あ'], 0, 1⟩, ⟨['い'], 2, 3⟩, ⟨['う'], 4, 5⟩]

def jpBlob : List Nat :=
  encodeOffsets ((tokenize jpText jpMorphemes).map Prod.snd)

def jpBytes : List Nat := utf8Encode jpText

/-- The spec's CRLF example file with bytes `"a\r\nb"`. -/
def crlfText : List Char := "a\r\nb".toList

def crlfMorphemes : List SudachiMorpheme :=
  [⟨['a'], 0, 1⟩, ⟨['b'], 3, 4⟩]

def crlfBlob : List Nat :=
  encodeOffsets ((tokenize crlfText crlfMorphemes).map Prod.snd)

def crlfBytes : List Nat := utf8Encode crlfText

/-- C3: for a decodable token offset and a readable file the reported line
number is 1 plus the count of newline bytes (10) among the first `offset`
bytes; an undecodable offset, a missing blob, or an unreadable file each
yield line 1 and never an error.  On the spec's examples: in UTF-8
`"あ\nい\nう"` token `い` resolves to line 2 and `う` to line 3, and in
bytes `"a\r\nb"` token `b` resolves to line 2. -/
theorem search_line_resolution :
    (∀ (blob : List Nat) (i off : Nat) (bs : List Nat),
        decodeOffset blob i = some off →
        resolveLineNumber (some blob) i (some bs) = (bs.take off).count 10 + 1) ∧
    (∀ (blob : List Nat) (i : Nat) (fb : Option (List Nat)),
        decodeOffset blob i = none → resolveLineNumber (some blob) i fb = 1) ∧
    (∀ (blob : List Nat) (i : Nat), resolveLineNumber (some blob) i none = 1) ∧
    (∀ (i : Nat) (fb : Option (List Nat)), resolveLineNumber none i fb = 1) ∧
    resolveLineNumber (some jpBlob) 1 (some jpBytes) = 2 ∧
    resolveLineNumber (some jpBlob) 2 (some jpBytes) = 3 ∧
    resolveLineNumber (some crlfBlob) 1 (some crlfBytes) = 2 := by
  refine ⟨?_, ?_, ?_, ?_, by decide, by decide, by decide⟩
  · intro blob i off bs h
    simp [resolveLineNumber, h]
  · intro blob i fb h
    simp [resolveLineNumber, h]
  · intro blob i
    simp only [resolveLineNumber]
    cases decodeOffset blob i <;> rfl
  · intro i fb
    rfl

theorem search_line_resolution_witness :
    decodeOffset jpBlob 0 = some 0 ∧
    resolveLineNumber (some jpBlob) 0 (some jpBytes) = (jpBytes.take 0).count 10 + 1 :=
  ⟨by decide, search_line_resolution.1 jpBlob 0 0 jpBytes (by decide)⟩

/-! ## Snippet rendering (`search_documents`, server.py lines 514-519)

The SQL query asks the FTS engine for snippets delimited by the sentinel
markers (triple left braces, `MATCH` or `/MATCH`, triple right braces);
the Python then runs `html.escape` over the whole snippet and only
afterwards replaces the sentinels with `<b>` / `</b>`.  Braces are spelled
via `Char.ofNat` (123/125). -/

def lbrace : Char := Char.ofNat 123

def rbrace : Char := Char.ofNat 125

def quotChar : Char := Char.ofNat 34

def aposChar : Char := Char.ofNat 39

/-- The opening sentinel marker passed to `snippet()`/`highlight()`. -/
def matchMarker : List Char :=
  [lbrace, lbrace, lbrace, 'M', 'A', 'T', 'C', 'H', rbrace, rbrace, rbrace]

/-- The closing sentinel marker. -/
def endMarker : List Char :=
  [lbrace, lbrace, lbrace, '/', 'M', 'A', 'T', 'C', 'H', rbrace, rbrace, rbrace]

def bTag : List Char := ['<', 'b', '>']

def bTagClose : List Char := ['<', '/', 'b', '>']

/-- `html.escape(s, quote=True)` acts on each character independently (the
sequential `str.replace` passes in CPython touch disjoint characters and
never re-process inserted text), so it is the per-character map below. -/
def escapeChar (c : Char) : List Char :=
  if c = '&' then "&amp;".toList
  else if c = '<' then "&lt;".toList
  else if c = '>' then "&gt;".toList
  else if c = quotChar then "&quot;".toList
  else if c = aposChar then "&#x27;".toList
  else [c]

def htmlEscape (s : List Char) : List Char := s.flatMap escapeChar

theorem htmlEscape_append (a b : List Char) :
    htmlEscape (a ++ b) = htmlEscape a ++ htmlEscape b := by
  simp [htmlEscape]

/-- One scanning pass of Python `str.replace`: at each position, if the
pattern starts here, emit the replacement and jump over the pattern,
otherwise emit the character and move on.  `fuel` only drives structural
recursion; `replaceAll` supplies `s.length`, which always suffices because
every step consumes at least one character (the pattern is required
non-empty in the match branch, as in `str.replace` with the non-empty
sentinel patterns used here). -/
def replaceAllGo (pat repl : List Char) : Nat → List Char → List Char
  | 0, s => s
  | fuel + 1, s =>
    match s with
    | [] => []
    | c :: rest =>
      if pat ≠ [] ∧ pat <+: (c :: rest) then
        repl ++ replaceAllGo pat repl fuel ((c :: rest).drop pat.length)
      else
        c :: replaceAllGo pat repl fuel rest

/-- Python `s.replace(pat, repl)` for non-empty `pat`. -/
def replaceAll (s pat repl : List Char) : List Char :=
  replaceAllGo pat repl s.length s

/-- The snippet rendering of `search_documents`: escape the entire raw
snippet first, then substitute the sentinel markers with the highlight
markup. -/
def renderSnippet (raw : List Char) : List Char :=
  replaceAll (replaceAll (htmlEscape raw) matchMarker bTag) endMarker bTagClose

theorem replaceAllGo_pres_front (pat repl t : List Char) (ht : ∀ c ∈ t, c ∉ pat) :
    ∀ (fuel : Nat) (s : List Char), t <+: s → t <+: replaceAllGo pat repl fuel s := by
  induction t with
  | nil => intro fuel s _; exact List.nil_prefix
  | cons a t ih =>
    intro fuel s hts
    cases fuel with
    | zero => simpa [replaceAllGo] using hts
    | succ f =>
      obtain ⟨w, hw⟩ := hts
      subst hw
      have hnc : ¬ (pat ≠ [] ∧ pat <+: ((a :: t) ++ w)) := by
        rintro ⟨hne, hp⟩
        match pat, hne with
        | p :: ps, _ =>
          have hpa : p = a := (List.cons_prefix_cons.mp (by simpa using hp)).1
          exact ht a (by simp) (hpa ▸ List.mem_cons_self p ps)
      rw [show (a :: t) ++ w = a :: (t ++ w) by simp]
      rw [show replaceAllGo pat repl (f + 1) (a :: (t ++ w))
            = a :: replaceAllGo pat repl f (t ++ w) by
        simp only [replaceAllGo]
        rw [if_neg (by simpa using hnc)]]
      exact List.cons_prefix_cons.mpr
        ⟨rfl, ih (fun c hc => ht c (by simp [hc])) f (t ++ w) (List.prefix_append t w)⟩

theorem replaceAllGo_pres_sub (pat repl t : List Char) (ht : ∀ c ∈ t, c ∉ pat)
    (hne : t ≠ []) :
    ∀ (fuel : Nat) (s : List Char), s.length ≤ fuel → t <:+: s →
      t <:+: replaceAllGo pat repl fuel s := by
  intro fuel
  induction fuel with
  | zero => intro s _ hts; simpa [replaceAllGo] using hts
  | succ f ih =>
    intro s hlen hts
    match s with
    | [] => simpa [replaceAllGo] using hts
    | c :: rest =>
      by_cases hcond : pat ≠ [] ∧ pat <+: (c :: rest)
      · rw [show replaceAllGo pat repl (f + 1) (c :: rest)
              = repl ++ replaceAllGo pat repl f ((c :: rest).drop pat.length) by
          simp only [replaceAllGo]
          rw [if_pos hcond]]
        obtain ⟨u, v, huv⟩ := hts
        rcases Nat.lt_or_ge u.length pat.length with hu | hu
        · -- the occurrence would have to start inside the matched pattern:
          -- impossible because t and pat share no character
          exfalso
          obtain ⟨w, hw⟩ := hcond.2
          have hu1 : u <+: (c :: rest) := ⟨t ++ v, by rw [← List.append_assoc]; exact huv⟩
          have hul : u.length ≤ pat.length := Nat.le_of_lt hu
          have hupre : u <+: pat :=
            List.prefix_of_prefix_length_le hu1 hcond.2 hul
          obtain ⟨r, hr⟩ := hupre
          have hrne : r ≠ [] := by
            intro h
            rw [h, List.append_nil] at hr
            rw [hr] at hu
            exact lt_irrefl _ hu
          have htv : t ++ v = r ++ w := by
            have h1 : u ++ (t ++ v) = u ++ (r ++ w) := by
              rw [← List.append_assoc, huv, ← List.append_assoc, hr, hw]
            exact List.append_cancel_left h1
          match t, r, hne, hrne with
          | th :: tt, rh :: rt, _, _ =>
            have hhead : th = rh := by
              have := congrArg List.head? htv
              simpa using this
            have hmem : th ∈ pat := by
              rw [← hr, hhead]
              simp
            exact ht th (by simp) hmem
        · have hdrop : t <:+: (c :: rest).drop pat.length := by
            have hstep : (c :: rest).drop pat.length
                = u.drop pat.length ++ (t ++ v) := by
              rw [← huv, List.append_assoc, List.drop_append_of_le_length (by omega)]
            refine ⟨u.drop pat.length, v, ?_⟩
            rw [hstep, List.append_assoc]
          have hlen2 : ((c :: rest).drop pat.length).length ≤ f := by
            rw [List.length_drop]
            have hp1 : 1 ≤ pat.length := by
              match pat, hcond.1 with
              | p :: ps, _ => simp
            simp only [List.length_cons] at hlen ⊢
            omega
          obtain ⟨x, y, hxy⟩ := ih _ hlen2 hdrop
          exact ⟨repl ++ x, y, by rw [← hxy]; simp⟩
      · rw [show replaceAllGo pat repl (f + 1) (c :: rest)
              = c :: replaceAllGo pat repl f rest by
          simp only [replaceAllGo]
          rw [if_neg (by simpa using hcond)]]
        obtain ⟨u, v, huv⟩ := hts
        match u, huv with
        | [], huv =>
          have hpre : t <+: (c :: rest) := ⟨v, by simpa using huv⟩
          obtain ⟨w, hw⟩ :=
            replaceAllGo_pres_front pat repl t ht (f + 1) (c :: rest) hpre
          rw [show replaceAllGo pat repl (f + 1) (c :: rest)
                = c :: replaceAllGo pat repl f rest by
            simp only [replaceAllGo]
            rw [if_neg (by simpa using hcond)]] at hw
          exact ⟨[], w, by simpa using hw⟩
        | c' :: u', huv =>
          have hcc : c' = c ∧ u' ++ t ++ v = rest := by
            have := huv
            simp only [List.cons_append, List.cons.injEq] at this
            exact this
          have hsub : t <:+: rest := ⟨u', v, hcc.2⟩
          obtain ⟨x, y, hxy⟩ :=
            ih rest (by simp only [List.length_cons] at hlen; omega) hsub
          exact ⟨c :: x, y, by rw [← hxy]; simp⟩

theorem replaceAllGo_hits (pat repl : List Char) (hpat : pat ≠ []) :
    ∀ (fuel : Nat) (s : List Char), s.length ≤ fuel → pat <:+: s →
      repl <:+: replaceAllGo pat repl fuel s := by
  intro fuel
  induction fuel with
  | zero =>
    intro s hlen hts
    have : s = [] := List.length_eq_zero.mp (Nat.le_zero.mp hlen)
    subst this
    exact absurd (List.eq_nil_of_sublist_nil hts.sublist) hpat
  | succ f ih =>
    intro s hlen hts
    match s with
    | [] => exact absurd (List.eq_nil_of_sublist_nil hts.sublist) hpat
    | c :: rest =>
      by_cases hcond : pat ≠ [] ∧ pat <+: (c :: rest)
      · rw [show replaceAllGo pat repl (f + 1) (c :: rest)
              = repl ++ replaceAllGo pat repl f ((c :: rest).drop pat.length) by
          simp only [replaceAllGo]
          rw [if_pos hcond]]
        exact ⟨[], replaceAllGo pat repl f ((c :: rest).drop pat.length), by simp⟩
      · rw [show replaceAllGo pat repl (f + 1) (c :: rest)
              = c :: replaceAllGo pat repl f rest by
          simp only [replaceAllGo]
          rw [if_neg (by simpa using hcond)]]
        obtain ⟨u, v, huv⟩ := hts
        match u, huv with
        | [], huv =>
          have hpre : pat <+: (c :: rest) := ⟨v, by simpa using huv⟩
          exact absurd (And.intro hpat hpre) hcond
        | c' :: u', huv =>
          have hcc : u' ++ pat ++ v = rest := by
            simp only [List.cons_append, List.cons.injEq] at huv
            exact huv.2
          obtain ⟨x, y, hxy⟩ :=
            ih rest (by simp only [List.length_cons] at hlen; omega) ⟨u', v, hcc⟩
          exact ⟨c :: x, y, by rw [← hxy]; simp⟩

/-- Every `<` in the list is immediately followed by `b` or `/`: the shape
of highlight markup, which the literal text `<script>` (where `<` is
followed by `s`) can never have. -/
def LtGuarded (l : List Char) : Prop :=
  ∀ i : Nat, l[i]? = some '<' → l[i + 1]? = some 'b' ∨ l[i + 1]? = some '/'

theorem ltGuarded_nil : LtGuarded [] := by
  intro i hi
  simp at hi

theorem ltGuarded_cons (c : Char) (l : List Char) (hc : c ≠ '<')
    (hl : LtGuarded l) : LtGuarded (c :: l) := by
  intro i hi
  cases i with
  | zero =>
    simp only [List.getElem?_cons_zero, Option.some.injEq] at hi
    exact absurd hi hc
  | succ n =>
    rw [List.getElem?_cons_succ] at hi
    rw [List.getElem?_cons_succ]
    exact hl n hi

theorem ltGuarded_append (a b : List Char) (ha : LtGuarded a) (hb : LtGuarded b)
    (hlast : a.getLast? ≠ some '<') : LtGuarded (a ++ b) := by
  intro i hi
  rcases Nat.lt_or_ge i a.length with h | h
  · rcases Nat.lt_or_ge (i + 1) a.length with h2 | h2
    · rw [List.getElem?_append_left h] at hi
      rw [List.getElem?_append_left h2]
      exact ha i hi
    · exfalso
      apply hlast
      rw [List.getElem?_append_left h] at hi
      rw [List.getLast?_eq_getElem? a, show a.length - 1 = i by omega]
      exact hi
  · rw [List.getElem?_append_right h] at hi
    rw [List.getElem?_append_right (by omega),
      show i + 1 - a.length = (i - a.length) + 1 by omega]
    exact hb (i - a.length) hi

theorem ltGuarded_drop (l : List Char) (n : Nat) (h : LtGuarded l) :
    LtGuarded (l.drop n) := by
  intro i hi
  rw [List.getElem?_drop] at hi
  rw [List.getElem?_drop, show n + (i + 1) = (n + i) + 1 by omega]
  exact h (n + i) hi

theorem ltGuarded_bTag : LtGuarded bTag := by
  intro i hi
  match i with
  | 0 => exact Or.inl rfl
  | 1 => exact absurd hi (by decide)
  | 2 => exact absurd hi (by decide)
  | n + 3 => simp [bTag] at hi

theorem ltGuarded_bTagClose : LtGuarded bTagClose := by
  intro i hi
  match i with
  | 0 => exact Or.inr rfl
  | 1 => exact absurd hi (by decide)
  | 2 => exact absurd hi (by decide)
  | 3 => exact absurd hi (by decide)
  | n + 4 => simp [bTagClose] at hi

theorem escapeChar_no_lt (c : Char) : '<' ∉ escapeChar c := by
  unfold escapeChar
  split_ifs with h1 h2 h3 h4 h5
  · decide
  · decide
  · decide
  · decide
  · decide
  · simp only [List.mem_singleton]
    intro h
    exact h2 h.symm

theorem htmlEscape_no_lt (s : List Char) : ∀ c ∈ htmlEscape s, c ≠ '<' := by
  intro c hc
  simp only [htmlEscape, List.mem_flatMap] at hc
  obtain ⟨a, _, ha⟩ := hc
  intro h
  subst h
  exact escapeChar_no_lt a ha

/-- Replacing any pattern inside `<`-free text by a guarded replacement
whose last character is not `<` yields guarded text. -/
theorem replaceAllGo_fresh (pat repl : List Char) (hrepl : LtGuarded repl)
    (hlast : repl.getLast? ≠ some '<') :
    ∀ (fuel : Nat) (s : List Char), (∀ c ∈ s, c ≠ '<') → s.length ≤ fuel →
      LtGuarded (replaceAllGo pat repl fuel s) := by
  intro fuel
  induction fuel with
  | zero =>
    intro s _ hlen
    have : s = [] := List.length_eq_zero.mp (Nat.le_zero.mp hlen)
    subst this
    simpa [replaceAllGo] using ltGuarded_nil
  | succ f ih =>
    intro s hfresh hlen
    match s with
    | [] => simpa [replaceAllGo] using ltGuarded_nil
    | c :: rest =>
      by_cases hcond : pat ≠ [] ∧ pat <+: (c :: rest)
      · rw [show replaceAllGo pat repl (f + 1) (c :: rest)
              = repl ++ replaceAllGo pat repl f ((c :: rest).drop pat.length) by
          simp only [replaceAllGo]
          rw [if_pos hcond]]
        refine ltGuarded_append _ _ hrepl ?_ hlast
        refine ih _ ?_ ?_
        · intro x hx
          exact hfresh x (List.mem_of_mem_drop hx)
        · have hp1 : 1 ≤ pat.length := by
            match pat, hcond.1 with
            | p :: ps, _ => simp
          rw [List.length_drop]
          simp only [List.length_cons] at hlen ⊢
          omega
      · rw [show replaceAllGo pat repl (f + 1) (c :: rest)
              = c :: replaceAllGo pat repl f rest by
          simp only [replaceAllGo]
          rw [if_neg (by simpa using hcond)]]
        refine ltGuarded_cons _ _ (hfresh c (by simp)) ?_
        refine ih rest (fun x hx => hfresh x (by simp [hx])) ?_
        simp only [List.length_cons] at hlen
        omega

/-- Replacing the closing sentinel by `</b>` inside guarded text keeps the
text guarded: the replacement is guarded, and an emitted single character
`<` was guarded in the input, whose follower (`b` or `/`) can never start
the closing sentinel (which starts with a left brace). -/
theorem replaceAllGo_guarded :
    ∀ (fuel : Nat) (s : List Char), s.length ≤ fuel → LtGuarded s →
      LtGuarded (replaceAllGo endMarker bTagClose fuel s) := by
  intro fuel
  induction fuel with
  | zero =>
    intro s hlen _
    have hs : s = [] := List.length_eq_zero.mp (Nat.le_zero.mp hlen)
    subst hs
    simpa [replaceAllGo] using ltGuarded_nil
  | succ f ih =>
    intro s hlen hg
    match s with
    | [] => simpa [replaceAllGo] using ltGuarded_nil
    | c :: rest =>
      by_cases hcond : endMarker ≠ [] ∧ endMarker <+: (c :: rest)
      · rw [show replaceAllGo endMarker bTagClose (f + 1) (c :: rest)
              = bTagClose
                ++ replaceAllGo endMarker bTagClose f ((c :: rest).drop endMarker.length) by
          simp only [replaceAllGo]
          rw [if_pos hcond]]
        refine ltGuarded_append _ _ ltGuarded_bTagClose ?_ (by decide)
        refine ih _ ?_ (ltGuarded_drop _ _ hg)
        rw [List.length_drop]
        have hml : endMarker.length = 12 := by decide
        simp only [List.length_cons] at hlen ⊢
        omega
      · rw [show replaceAllGo endMarker bTagClose (f + 1) (c :: rest)
              = c :: replaceAllGo endMarker bTagClose f rest by
          simp only [replaceAllGo]
          rw [if_neg (by simpa using hcond)]]
        have hrest : LtGuarded rest := by
          have h := ltGuarded_drop (c :: rest) 1 hg
          simpa using h
        have hlen2 : rest.length ≤ f := by
          simp only [List.length_cons] at hlen
          omega
        intro i hi
        cases i with
        | zero =>
          simp only [List.getElem?_cons_zero, Option.some.injEq] at hi
          have h1 := hg 0 (by simp [hi])
          rw [List.getElem?_cons_succ] at h1
          rw [List.getElem?_cons_succ]
          match rest, h1, hrest, hlen2 with
          | [], h1, _, _ => rcases h1 with h | h <;> simp at h
          | d :: rest2, h1, hrest, hlen2 =>
            have hd : d = 'b' ∨ d = '/' := by
              rcases h1 with h | h
              · exact Or.inl (by simpa using h)
              · exact Or.inr (by simpa using h)
            match f, hlen2 with
            | f2 + 1, _ =>
              have hnotp : ¬ (endMarker ≠ [] ∧ endMarker <+: (d :: rest2)) := by
                rintro ⟨_, hp⟩
                have hp2 : lbrace
                    :: [lbrace, lbrace, '/', 'M', 'A', 'T', 'C', 'H',
                        rbrace, rbrace, rbrace] <+: d :: rest2 := by
                  simpa [endMarker] using hp
                have hld := (List.cons_prefix_cons.mp hp2).1
                rcases hd with h | h <;> subst h <;> exact absurd hld (by decide)
              rw [show replaceAllGo endMarker bTagClose (f2 + 1) (d :: rest2)
                    = d :: replaceAllGo endMarker bTagClose f2 rest2 by
                simp only [replaceAllGo]
                rw [if_neg (by simpa using hnotp)]]
              rcases hd with h | h <;> simp [h]
        | succ n =>
          rw [List.getElem?_cons_succ] at hi
          rw [List.getElem?_cons_succ]
          exact ih rest hlen2 hrest n hi

/-- `"<script>"` as characters. -/
def scriptTag : List Char := ['<', 's', 'c', 'r', 'i', 'p', 't', '>']

/-- `"&lt;script&gt;"`, the HTML-escaped form of `scriptTag`. -/
def escScript : List Char :=
  ['&', 'l', 't', ';', 's', 'c', 'r', 'i', 'p', 't', '&', 'g', 't', ';']

theorem htmlEscape_pres_sub (t s : List Char) (h : t <:+: s) :
    htmlEscape t <:+: htmlEscape s := by
  obtain ⟨u, v, huv⟩ := h
  exact ⟨htmlEscape u, htmlEscape v, by rw [← huv]; simp [htmlEscape_append]⟩

/-- C4: the raw snippet is HTML-escaped in its entirety before the
sentinel markers are replaced by the highlight markup, so a raw snippet
containing `<script>` renders with the escaped `&lt;script&gt;` and never
with a literal `<script>`, while a sentinel in the raw snippet does become
unescaped `<b>` markup. -/
theorem snippet_escaping_correct (raw : List Char) :
    (scriptTag <:+: raw →
      escScript <:+: renderSnippet raw ∧ ¬ scriptTag <:+: renderSnippet raw) ∧
    (matchMarker <:+: raw → bTag <:+: renderSnippet raw) := by
  constructor
  · intro hraw
    have h1 : escScript <:+: htmlEscape raw := by
      have h := htmlEscape_pres_sub scriptTag raw hraw
      rwa [show htmlEscape scriptTag = escScript by decide] at h
    have h2 : escScript <:+: replaceAll (htmlEscape raw) matchMarker bTag :=
      replaceAllGo_pres_sub matchMarker bTag escScript (by decide) (by decide)
        _ _ (le_refl _) h1
    have h3 : escScript <:+: renderSnippet raw :=
      replaceAllGo_pres_sub endMarker bTagClose escScript (by decide) (by decide)
        _ _ (le_refl _) h2
    have hG1 : LtGuarded (replaceAll (htmlEscape raw) matchMarker bTag) :=
      replaceAllGo_fresh matchMarker bTag ltGuarded_bTag (by decide)
        _ _ (htmlEscape_no_lt raw) (le_refl _)
    have hG2 : LtGuarded (renderSnippet raw) :=
      replaceAllGo_guarded _ _ (le_refl _) hG1
    refine ⟨h3, ?_⟩
    intro hbad
    obtain ⟨u, v, huv⟩ := hbad
    have e1 : (renderSnippet raw)[u.length]? = some '<' := by
      rw [← huv, List.append_assoc, List.getElem?_append_right (le_refl u.length)]
      simp [scriptTag]
    have e2 : (renderSnippet raw)[u.length + 1]? = some 's' := by
      rw [← huv, List.append_assoc, List.getElem?_append_right (by omega),
        show u.length + 1 - u.length = 1 by omega]
      simp [scriptTag]
    rcases hG2 u.length e1 with h | h
    · rw [e2] at h
      exact absurd (Option.some.inj h) (by decide)
    · rw [e2] at h
      exact absurd (Option.some.inj h) (by decide)
  · intro hm
    have h1 : matchMarker <:+: htmlEscape raw := by
      have h := htmlEscape_pres_sub matchMarker raw hm
      rwa [show htmlEscape matchMarker = matchMarker by decide] at h
    have h2 : bTag <:+: replaceAll (htmlEscape raw) matchMarker bTag :=
      replaceAllGo_hits matchMarker bTag (by decide) _ _ (le_refl _) h1
    exact replaceAllGo_pres_sub endMarker bTagClose bTag (by decide) (by decide)
      _ _ (le_refl _) h2

/-- A raw snippet as the FTS engine would emit it: file content containing
markup plus a sentinel-delimited match. -/
def rawDemo : List Char :=
  "x ".toList ++ scriptTag ++ " y ".toList ++ matchMarker ++ ['t'] ++ endMarker

theorem snippet_escaping_correct_witness :
    (scriptTag <:+: rawDemo ∧
      (escScript <:+: renderSnippet rawDemo ∧
        ¬ scriptTag <:+: renderSnippet rawDemo)) ∧
    (matchMarker <:+: rawDemo ∧ bTag <:+: renderSnippet rawDemo) :=
  ⟨⟨by decide, (snippet_escaping_correct rawDemo).1 (by decide)⟩,
   ⟨by decide, (snippet_escaping_correct rawDemo).2 (by decide)⟩⟩

/-! ## `delete_index` path matching (server.py lines 392-411)

`delete_index` builds `search_pattern = root_path + os.sep` (unless the
root already ends with the separator) `+ "%"` and runs
`DELETE ... WHERE path = ? OR path LIKE ?`.  SQL `=` on TEXT is exact
binary comparison; SQLite `LIKE` without an ESCAPE clause treats `%` as
any-sequence, `_` as any-single-character, and compares other characters
ASCII-case-insensitively (SQLite's documented default). -/

/-- SQLite's ASCII upper-to-lower case folding used by default `LIKE`. -/
def foldAscii (c : Char) : Char :=
  if 65 ≤ c.toNat ∧ c.toNat ≤ 90 then Char.ofNat (c.toNat + 32) else c

/-- SQLite `LIKE` (default, no ESCAPE): structural on the pattern; the `%`
case tries every suffix of the subject. -/
def likeMatch : List Char → List Char → Bool
  | [], s => s.isEmpty
  | p :: ps, s =>
    if p = '%' then (s.tails).any fun t => likeMatch ps t
    else
      match s with
      | [] => false
      | c :: t =>
        (if p = '_' then true else foldAscii p == foldAscii c) && likeMatch ps t

/-- `root_path if root_path.endswith(os.sep) else root_path + os.sep`. -/
def rootWithSep (root : List Char) : List Char :=
  if root.getLast? = some '/' then root else root ++ ['/']

/-- The `search_pattern` bound to `path LIKE ?`. -/
def deletePattern (root : List Char) : List Char :=
  rootWithSep root ++ ['%']

/-- The row predicate of `delete_index`'s DELETE statements:
`path = ? OR path LIKE ?`. -/
def deleteRemoves (root path : List Char) : Bool :=
  path == root || likeMatch (deletePattern root) path

/-- `delete_index` on the stored relations: both `documents_fts` and
`documents_meta` keep exactly the rows the predicate does not match. -/
def delete_index_rows (root : List Char) (paths : List (List Char)) :
    List (List Char) :=
  paths.filter fun p => !(deleteRemoves root p)

theorem likeMatch_percent_true (s : List Char) : likeMatch ['%'] s = true := by
  induction s with
  | nil => rfl
  | cons c t ih =>
    have h1 : likeMatch ['%'] (c :: t)
        = (likeMatch [] (c :: t) || t.tails.any fun x => likeMatch [] x) := by
      show ((c :: t).tails.any fun x => likeMatch [] x)
          = (likeMatch [] (c :: t) || t.tails.any fun x => likeMatch [] x)
      rw [List.tails_cons, List.any_cons]
    have h2 : (t.tails.any fun x => likeMatch [] x) = true := ih
    rw [h1, h2, Bool.or_true]

theorem likeMatch_lit :
    ∀ pre : List Char, (∀ c ∈ pre, c ≠ '%' ∧ c ≠ '_') →
      ∀ s : List Char,
        (likeMatch (pre ++ ['%']) s = true ↔
          pre.map foldAscii <+: s.map foldAscii) := by
  intro pre
  induction pre with
  | nil =>
    intro _ s
    simp [likeMatch_percent_true s, List.nil_prefix]
  | cons p pre ih =>
    intro hpre s
    have hp := hpre p (by simp)
    match s with
    | [] =>
      simp only [List.cons_append, likeMatch, if_neg hp.1, List.map_cons,
        List.map_nil]
      constructor
      · intro h; cases h
      · intro h
        exact absurd h.length_le (by simp)
    | c :: t =>
      simp only [List.cons_append, likeMatch, if_neg hp.1, List.map_cons]
      rw [if_neg hp.2, Bool.and_eq_true, beq_iff_eq, List.cons_prefix_cons]
      have iht := ih (fun x hx => hpre x (by simp [hx])) t
      constructor
      · rintro ⟨h1, h2⟩
        exact ⟨h1, iht.mp h2⟩
      · rintro ⟨h1, h2⟩
        exact ⟨h1, iht.mpr h2⟩

/-- C5 (amended): for roots containing no `LIKE` wildcard characters, a
row is removed exactly when its path equals the root or is, up to SQLite's
ASCII case folding, a separator-bounded descendant of the root; in
particular deleting under `/a/b` touches `/a/b` and `/a/b/x.txt` but never
the sibling `/a/bc` or anything under it. -/
theorem delete_index_boundary :
    (∀ (root path : List Char), (∀ c ∈ root, c ≠ '%' ∧ c ≠ '_') →
      (deleteRemoves root path = true ↔
        path = root ∨
          (rootWithSep root).map foldAscii <+: path.map foldAscii)) ∧
    deleteRemoves "/a/b".toList "/a/bc".toList = false ∧
    deleteRemoves "/a/b".toList "/a/bc/x.txt".toList = false ∧
    deleteRemoves "/a/b".toList "/a/b".toList = true ∧
    deleteRemoves "/a/b".toList "/a/b/x.txt".toList = true := by
  refine ⟨?_, by decide, by decide, by decide, by decide⟩
  intro root path hroot
  have hsep : ∀ c ∈ rootWithSep root, c ≠ '%' ∧ c ≠ '_' := by
    intro c hc
    by_cases h : root.getLast? = some '/'
    · rw [rootWithSep, if_pos h] at hc
      exact hroot c hc
    · rw [rootWithSep, if_neg h] at hc
      rcases List.mem_append.mp hc with h2 | h2
      · exact hroot c h2
      · simp only [List.mem_singleton] at h2
        subst h2
        exact ⟨by decide, by decide⟩
  unfold deleteRemoves deletePattern
  rw [Bool.or_eq_true, beq_iff_eq, likeMatch_lit (rootWithSep root) hsep path]

theorem delete_index_boundary_witness :
    (∀ c ∈ "/a/b".toList, c ≠ '%' ∧ c ≠ '_') ∧
    (deleteRemoves "/a/b".toList "/A/B/x.txt".toList = true ↔
      "/A/B/x.txt".toList = "/a/b".toList ∨
        (rootWithSep "/a/b".toList).map foldAscii
          <+: "/A/B/x.txt".toList.map foldAscii) :=
  ⟨by decide, delete_index_boundary.1 "/a/b".toList "/A/B/x.txt".toList (by decide)⟩

/-- C5 counterexample: with root `/a/b_c` the unescaped `_` acts as a
`LIKE` wildcard, so the path `/a/bXc/f.txt` — neither equal to the root
nor a separator-bounded descendant of it — is removed by `delete_index`.
The claim's "removes exactly root-or-descendants ... for all root values"
is therefore false on the code. -/
theorem delete_index_wildcard_counterexample :
    deleteRemoves "/a/b_c".toList "/a/bXc/f.txt".toList = true ∧
    "/a/bXc/f.txt".toList ≠ "/a/b_c".toList ∧
    ¬ ("/a/b_c/".toList <+: "/a/bXc/f.txt".toList) ∧
    delete_index_rows "/a/b_c".toList ["/a/bXc/f.txt".toList] = [] := by
  exact ⟨by decide, by decide, by decide, by decide⟩

/-! ## `validate_path` (server.py lines 63-82) and the store

`validate_path` resolves the argument with `os.path.abspath` and raises
`ValueError` when `os.path.commonpath([cwd, abs_path]) != cwd`.  Both
library calls are modelled for already-normalized inputs (no `.`/`..`
segments, no duplicate separators, `cwd` not the filesystem root).  The
code's own raise is caught by its `except ValueError` and re-raised, so
the escaping message is always the "invalid/outside CWD" one.  A raise is
modelled as `Except.error`. -/

def abspathModel (cwd path : List Char) : List Char :=
  if path.head? = some '/' then path else cwd ++ '/' :: path

def commonpathEqCwd (cwd p : List Char) : Bool :=
  p == cwd || (cwd ++ ['/']).isPrefixOf p

def validate_path (cwd path : List Char) : Except (List Char) (List Char) :=
  let abs_path := abspathModel cwd path
  if commonpathEqCwd cwd abs_path then Except.ok abs_path
  else
    Except.error ("Access denied: Path ".toList ++ path
      ++ " is invalid/outside CWD.".toList)

/-- One row of the `documents_fts` relation (keyed by path). -/
structure DocRow where
  content : List Char
  tokens : List Char

/-- One row of the `documents_meta` relation (keyed by path). -/
structure MetaRow where
  mtime : Int
  scanned_at : Int
  token_locations : List Nat

/-- The two persisted relations, as maps from path to row.  (SQLite itself
is external; its per-statement effects are modelled as total map updates —
statement-level failures such as lock timeouts are outside the model.) -/
structure Store where
  fts : List Char → Option DocRow
  meta : List Char → Option MetaRow

/-- Outcome of `open(path, encoding="utf-8").read()`: decoded text, a
`UnicodeDecodeError`, or an `OSError`-style failure with a message. -/
inductive ReadOutcome
  | content (text : List Char)
  | decodeError
  | ioError (msg : List Char)

/-- Filesystem and tokenizer oracle threaded through the operations. -/
structure FileSys where
  pathExists : List Char → Bool
  readText : List Char → ReadOutcome
  getMtime : List Char → Int
  morphemes : List Char → List SudachiMorpheme

/-- `" ".join(surfaces)`. -/
def joinSpace : List (List Char) → List Char
  | [] => []
  | [s] => s
  | s :: rest => s ++ ' ' :: joinSpace rest

/-- `_update_or_remove_file` (server.py lines 138-196): validate, delete
the records when the file is gone, otherwise read/tokenize/pack and upsert
both records; `UnicodeDecodeError` and every other per-file exception
(including `struct.error` from packing an offset `≥ 2^32`) are caught and
turned into report strings. -/
def update_or_remove_file (cwd : List Char) (fs : FileSys) (db : Store)
    (current_time : Int) (file_path : List Char) :
    Except (List Char) (Store × List Char) := do
  let fp ← validate_path cwd file_path
  if fs.pathExists fp = false then
    return ({ fts := fun p => if p = fp then none else db.fts p,
              meta := fun p => if p = fp then none else db.meta p },
            "Removed ".toList ++ fp ++ " from index.".toList)
  else
    match fs.readText fp with
    | ReadOutcome.content content =>
      let token_data := tokenize content (fs.morphemes content)
      let token_surfaces := token_data.map Prod.fst
      let token_offsets := token_data.map Prod.snd
      let tokens_str := joinSpace token_surfaces
      if token_offsets.all (fun x => decide (x < 4294967296)) then
        let packed_offsets := encodeOffsets token_offsets
        return ({ fts := fun p =>
                    if p = fp then some ⟨content, tokens_str⟩ else db.fts p,
                  meta := fun p =>
                    if p = fp then
                      some ⟨fs.getMtime fp, current_time, packed_offsets⟩
                    else db.meta p },
                "Updated ".toList ++ fp ++ " in index.".toList)
      else
        return (db, "Failed to update ".toList ++ fp ++ ": struct.error".toList)
    | ReadOutcome.decodeError =>
      return (db, "Skipped binary/non-utf8 file: ".toList ++ fp)
    | ReadOutcome.ioError msg =>
      return (db, "Failed to update ".toList ++ fp ++ ": ".toList ++ msg)

/-- `update_file` (server.py lines 581-589): validate, then delegate. -/
def update_file (cwd : List Char) (fs : FileSys) (db : Store)
    (current_time : Int) (file_path : List Char) :
    Except (List Char) (Store × List Char) := do
  let fp ← validate_path cwd file_path
  update_or_remove_file cwd fs db current_time fp

def fsEmpty : FileSys :=
  ⟨fun _ => false, fun _ => ReadOutcome.decodeError, fun _ => 0, fun _ => []⟩

def storeEmpty : Store := ⟨fun _ => none, fun _ => none⟩

/-- C6 (code bug): with the working directory `/w`, `update_file` on
`/etc/x` does not return a report string — `validate_path` raises
`ValueError` and the exception escapes the tool boundary, contrary to the
claim (and to the repository's own test `test_validate_path_security`,
which expects `/etc/passwd` to be accepted). -/
theorem update_file_raises_valueerror :
    update_file "/w".toList fsEmpty storeEmpty 0 "/etc/x".toList
      = Except.error
          ("Access denied: Path /etc/x is invalid/outside CWD.".toList) := by
  rfl

/-! ## `init_db` (server.py lines 99-129) -/

/-- Schema-level state of the database file. -/
structure SchemaState where
  ftsTable : Bool
  metaTable : Bool
  metaHasTokenLocations : Bool
  ftsRows : List (List Char)
  metaRows : List (List Char)

/-- `init_db`: `CREATE VIRTUAL TABLE IF NOT EXISTS documents_fts`,
`CREATE TABLE IF NOT EXISTS documents_meta`, `ALTER TABLE documents_meta
ADD COLUMN token_locations` (its `OperationalError` swallowed when the
column exists) and `PRAGMA journal_mode=WAL`.  No statement reads,
deletes, or rewrites any row. -/
def init_db (db : SchemaState) : SchemaState :=
  { db with ftsTable := true, metaTable := true, metaHasTokenLocations := true }

/-- The v1 database of the repository's migration test
`test_db_migration_v1_to_v2`: `documents_fts` exists and holds one row,
`documents_meta` is absent. -/
def legacyV1 : SchemaState :=
  { ftsTable := true, metaTable := false, metaHasTokenLocations := false,
    ftsRows := ["/foo/bar.txt".toList], metaRows := [] }

/-- C7 (code bug): `init_db` never discards full-text rows; on the legacy
layout (metadata relation absent, full-text relation populated) the
unattributed rows survive untouched, contradicting the spec's migration
behavior and the repository's own test, which asserts the relation is
cleared. -/
theorem init_db_keeps_legacy_rows :
    (∀ db : SchemaState, (init_db db).ftsRows = db.ftsRows) ∧
    legacyV1.metaTable = false ∧
    legacyV1.ftsRows ≠ [] ∧
    (init_db legacyV1).ftsRows = ["/foo/bar.txt".toList] :=
  ⟨fun _ => rfl, rfl, by decide, rfl⟩

/-! ## `index_directory` per-file step (server.py lines 283-348) -/

inductive ScanOutcome
  | updated
  | skipped
  | decodeSkipped
  | failed
deriving DecidableEq, Repr

/-- The loop body of `index_directory` for one regular, non-hidden,
non-ignored file: fetch the metadata row, compute `needs_update` (`True`
unless a row exists with `file_mtime <= db_mtime`); on update read the
file (a `UnicodeDecodeError` hits the loop's `continue`, outcome
`decodeSkipped`), tokenize, pack and upsert both records with
`scanned_at = current_time`; otherwise only bump `scanned_at`.  Any other
per-file exception is logged and the walk continues; it happens before the
write transaction, so the store is unchanged (outcome `failed`). -/
def scan_file (db : Store) (fs : FileSys) (file_path : List Char)
    (current_time : Int) : Store × ScanOutcome :=
  let file_mtime := fs.getMtime file_path
  let needs_update :=
    match db.meta file_path with
    | some m => decide (m.mtime < file_mtime)
    | none => true
  if needs_update then
    match fs.readText file_path with
    | ReadOutcome.content content =>
      let token_data := tokenize content (fs.morphemes content)
      let token_surfaces := token_data.map Prod.fst
      let token_offsets := token_data.map Prod.snd
      let tokens_str := joinSpace token_surfaces
      if token_offsets.all (fun x => decide (x < 4294967296)) then
        ({ fts := fun p =>
             if p = file_path then some ⟨content, tokens_str⟩ else db.fts p,
           meta := fun p =>
             if p = file_path then
               some ⟨file_mtime, current_time, encodeOffsets token_offsets⟩
             else db.meta p },
         ScanOutcome.updated)
      else (db, ScanOutcome.failed)
    | ReadOutcome.decodeError => (db, ScanOutcome.decodeSkipped)
    | ReadOutcome.ioError _ => (db, ScanOutcome.failed)
  else
    ({ db with
        meta := fun p =>
          if p = file_path then
            (db.meta file_path).map fun m => { m with scanned_at := current_time }
          else db.meta p },
     ScanOutcome.skipped)

/-- C8: when the stored mtime is at least the file's current mtime the
scan counts the file as skipped and rewrites only `scanned_at` — the
full-text row everywhere, the metadata of every other path, and the
skipped file's own `mtime` and `token_locations` are unchanged; and a file
that fails UTF-8 decoding leaves the store untouched with the
`decodeSkipped` outcome, counted neither as updated nor as skipped. -/
theorem scan_file_skip_frame :
    (∀ (db : Store) (fs : FileSys) (fp : List Char) (t : Int) (m : MetaRow),
      db.meta fp = some m → fs.getMtime fp ≤ m.mtime →
        (scan_file db fs fp t).2 = ScanOutcome.skipped ∧
        (∀ p, (scan_file db fs fp t).1.fts p = db.fts p) ∧
        (∀ p, p ≠ fp → (scan_file db fs fp t).1.meta p = db.meta p) ∧
        (scan_file db fs fp t).1.meta fp = some { m with scanned_at := t }) ∧
    (∀ (db : Store) (fs : FileSys) (fp : List Char) (t : Int),
      (∀ m, db.meta fp = some m → m.mtime < fs.getMtime fp) →
      fs.readText fp = ReadOutcome.decodeError →
      scan_file db fs fp t = (db, ScanOutcome.decodeSkipped)) := by
  constructor
  · intro db fs fp t m hrow hfresh
    have hnu : (match db.meta fp with
        | some mm => decide (mm.mtime < fs.getMtime fp)
        | none => true) = false := by
      rw [hrow]
      simp only [decide_eq_false_iff_not, not_lt]
      exact hfresh
    refine ⟨by simp [scan_file, hnu], fun p => by simp [scan_file, hnu],
      fun p hp => by simp [scan_file, hnu, hp],
      by simp [scan_file, hrow, (not_lt.mpr hfresh : ¬ m.mtime < fs.getMtime fp)]⟩
  · intro db fs fp t hstale hdec
    have hnu : (match db.meta fp with
        | some mm => decide (mm.mtime < fs.getMtime fp)
        | none => true) = true := by
      cases hm : db.meta fp with
      | none => rfl
      | some mm => simpa using hstale mm hm
    unfold scan_file
    simp only [hnu, if_true, hdec]

def fsDemo : FileSys :=
  ⟨fun _ => true, fun _ => ReadOutcome.decodeError, fun _ => 5, fun _ => []⟩

def storeDemo : Store :=
  ⟨fun _ => none,
   fun p => if p = "/w/a.txt".toList then some ⟨7, 1, [0, 4]⟩ else none⟩

theorem scan_file_skip_frame_witness :
    storeDemo.meta "/w/a.txt".toList = some ⟨7, 1, [0, 4]⟩ ∧
    fsDemo.getMtime "/w/a.txt".toList ≤ (7 : Int) ∧
    ((scan_file storeDemo fsDemo "/w/a.txt".toList 9).2 = ScanOutcome.skipped ∧
     (∀ p, (scan_file storeDemo fsDemo "/w/a.txt".toList 9).1.fts p
        = storeDemo.fts p) ∧
     (∀ p, p ≠ "/w/a.txt".toList →
        (scan_file storeDemo fsDemo "/w/a.txt".toList 9).1.meta p
          = storeDemo.meta p) ∧
     (scan_file storeDemo fsDemo "/w/a.txt".toList 9).1.meta "/w/a.txt".toList
        = some { mtime := 7, scanned_at := 9, token_locations := [0, 4] }) :=
  ⟨rfl, by decide,
   scan_file_skip_frame.1 storeDemo fsDemo "/w/a.txt".toList 9 ⟨7, 1, [0, 4]⟩
     rfl (by decide)⟩

/-! ## `search_documents` result assembly (server.py lines 414-563)

The FTS engine is external: it receives the quoted match expression and
returns rows `(path, snippet, highlight, tokens)`; those rows, the
metadata blob lookup and binary file reads are oracle inputs here. -/

/-- A row returned by the engine for the SELECT in `search_documents`. -/
structure SearchRow where
  path : List Char
  raw_snippet : List Char
  highlighted_tokens : List Char
  tokens : List Char

/-- Python `str.find` (index of leftmost occurrence; `none` for `-1`). -/
def findSub (s pat : List Char) : Option Nat :=
  (List.range (s.length + 1)).find? fun i => pat.isPrefixOf (s.drop i)

/-- Query-token sanitization: `'"' + surface.replace('"', '""') + '"'`. -/
def quoteSurface (s : List Char) : List Char :=
  quotChar :: (replaceAll s [quotChar] [quotChar, quotChar] ++ [quotChar])

/-- Per-row processing: render the snippet (C4), then resolve the line
number: find the first sentinel in the highlighted token stream, count the
spaces before it as the token index, and use blob + binary file read
(`b""` is falsy in Python, hence the emptiness test); every failure path
leaves line 1. -/
def processRow (r : SearchRow) (tokenMap : List Char → Option (List Nat))
    (readFileBytes : List Char → Option (List Nat)) : List Char :=
  let final_snippet := renderSnippet r.raw_snippet
  let line_number :=
    match findSub r.highlighted_tokens matchMarker with
    | none => 1
    | some match_start =>
      match tokenMap r.path with
      | none => 1
      | some blob =>
        if blob.isEmpty then 1
        else
          let token_index := (r.highlighted_tokens.take match_start).count ' '
          resolveLineNumber (some blob) token_index (readFileBytes r.path)
  "File: ".toList ++ r.path ++ [':'] ++ (Nat.repr line_number).toList
    ++ "\nSnippet: ".toList ++ final_snippet ++ ['\n']

/-- `search_documents` around the engine call: tokenized query in, engine
rows out, then formatting.  Mirrors the three early returns of the code:
empty `safe_surfaces`, empty row set, and the final (unreachable when rows
exist) empty-results check. -/
def search_documents (query_token_data : List (List Char × Nat))
    (rows : List SearchRow) (tokenMap : List Char → Option (List Nat))
    (readFileBytes : List Char → Option (List Nat)) : List (List Char) :=
  let safe_surfaces := query_token_data.map fun t => quoteSurface t.1
  if safe_surfaces.isEmpty then ["No matches found.".toList]
  else
    let results := rows.map fun r => processRow r tokenMap readFileBytes
    if rows.isEmpty then ["No matches found.".toList]
    else if results.isEmpty then ["No matches found.".toList]
    else results

/-- C9: when the query yields no token surfaces or the engine returns zero
rows, the result is exactly the one-element sentinel list, never an empty
collection; with a non-empty row set the result is the non-empty list of
formatted rows, one per row. -/
theorem search_documents_sentinel :
    (∀ (qtd : List (List Char × Nat)) (rows : List SearchRow)
        (tm : List Char → Option (List Nat)) (rf : List Char → Option (List Nat)),
      qtd = [] ∨ rows = [] →
        search_documents qtd rows tm rf = ["No matches found.".toList]) ∧
    (∀ (qtd : List (List Char × Nat)) (rows : List SearchRow)
        (tm : List Char → Option (List Nat)) (rf : List Char → Option (List Nat)),
      qtd ≠ [] → rows ≠ [] →
        search_documents qtd rows tm rf = rows.map (fun r => processRow r tm rf) ∧
        (search_documents qtd rows tm rf).length = rows.length ∧
        search_documents qtd rows tm rf ≠ []) := by
  constructor
  · intro qtd rows tm rf h
    rcases h with h | h
    · subst h
      simp [search_documents]
    · subst h
      cases qtd with
      | nil => simp [search_documents]
      | cons q qs => simp [search_documents]
  · intro qtd rows tm rf hq hr
    match qtd, rows, hq, hr with
    | q :: qs, r :: rs, _, _ =>
      refine ⟨by simp [search_documents], by simp [search_documents], ?_⟩
      simp [search_documents]

def demoRow : SearchRow :=
  ⟨"/w/a.txt".toList, "hit".toList, "hit".toList, "hit".toList⟩

theorem search_documents_sentinel_witness :
    ([(("a".toList, 0) : List Char × Nat)] ≠ []) ∧
    ([demoRow] ≠ []) ∧
    (search_documents [("a".toList, 0)] [demoRow] (fun _ => none) (fun _ => none)
        = [demoRow].map (fun r => processRow r (fun _ => none) (fun _ => none)) ∧
      (search_documents [("a".toList, 0)] [demoRow]
          (fun _ => none) (fun _ => none)).length = [demoRow].length ∧
      search_documents [("a".toList, 0)] [demoRow]
          (fun _ => none) (fun _ => none) ≠ []) :=
  ⟨List.cons_ne_nil _ _, List.cons_ne_nil _ _,
   search_documents_sentinel.2 [("a".toList, 0)] [demoRow]
     (fun _ => none) (fun _ => none) (List.cons_ne_nil _ _) (List.cons_ne_nil _ _)⟩

/-! ## `watch_directory` (server.py lines 592-642)

The watchdog `Observer` is external: modelled by an instance id (`gen`,
bumped whenever `Observer()` constructs a fresh object), `is_alive()`, and
the ordered list of scheduled roots.  `observer.start()` /
`observer.schedule(...)` are modelled as succeeding (their `except`
fallback covers library failures outside this model); loading
`.gitignore` and building the handler touch no shared state. -/

structure ObserverState where
  gen : Nat
  alive : Bool
  schedules : List (List Char)
deriving DecidableEq, Repr

/-- The module-level shared state: `observer` and `WATCHED_PATHS`. -/
structure WatchState where
  observer : ObserverState
  watched_paths : List (List Char)
deriving DecidableEq, Repr

/-- `watch_directory`: validate; report a missing root; if the observer is
not alive, clear the stale watched set and construct a fresh observer
instance (a stopped observer is never restarted in place); return early on
an already-watched root; otherwise register the root, start the observer
if needed, and schedule the root. -/
def watch_directory (cwd : List Char) (fs : FileSys) (st : WatchState)
    (root_path : List Char) : Except (List Char) (WatchState × List Char) := do
  let root ← validate_path cwd root_path
  if fs.pathExists root = false then
    return (st, "Error: Path ".toList ++ root ++ " does not exist.".toList)
  else
    let (obs, watched) :=
      if st.observer.alive = false then
        ({ gen := st.observer.gen + 1, alive := false, schedules := [] },
         ([] : List (List Char)))
      else (st.observer, st.watched_paths)
    if root ∈ watched then
      return ({ observer := obs, watched_paths := watched },
              "Already watching ".toList ++ root)
    else
      let watched2 := watched ++ [root]
      let obs2 := if obs.alive = false then { obs with alive := true } else obs
      let obs3 := { obs2 with schedules := obs2.schedules ++ [root] }
      return ({ observer := obs3, watched_paths := watched2 },
              "Started watching ".toList ++ root ++ " for changes.".toList)

/-- C10 (amended): provided the root validates and still exists on disk,
registering an already-watched root while the shared watcher is alive
returns "Already watching {root}" with the state — watched set and
scheduled subscriptions — unchanged; and when the watcher instance is not
alive, a fresh instance (new id) replaces it, the stale watched set is
cleared, and the root is the only watched and only scheduled entry. -/
theorem watch_directory_dedup :
    ∀ (cwd : List Char) (fs : FileSys) (st : WatchState) (rp r : List Char),
      validate_path cwd rp = Except.ok r →
      fs.pathExists r = true →
      (st.observer.alive = true → r ∈ st.watched_paths →
        watch_directory cwd fs st rp
          = Except.ok (st, "Already watching ".toList ++ r)) ∧
      (st.observer.alive = false →
        watch_directory cwd fs st rp
          = Except.ok
              ({ observer := { gen := st.observer.gen + 1, alive := true,
                               schedules := [r] },
                 watched_paths := [r] },
               "Started watching ".toList ++ r ++ " for changes.".toList)) := by
  intro cwd fs st rp r hval hex
  obtain ⟨⟨g, alv, scheds⟩, wp⟩ := st
  constructor
  · intro halive hmem
    simp only at halive hmem
    subst halive
    unfold watch_directory
    rw [hval]
    show (if fs.pathExists r = false then _ else _) = _
    rw [if_neg (by simp [hex])]
    simp [hmem]
    rfl
  · intro hdead
    simp only at hdead
    subst hdead
    unfold watch_directory
    rw [hval]
    show (if fs.pathExists r = false then _ else _) = _
    rw [if_neg (by simp [hex])]
    simp
    rfl

def fsThere : FileSys :=
  ⟨fun _ => true, fun _ => ReadOutcome.decodeError, fun _ => 0, fun _ => []⟩

def watchedState : WatchState :=
  { observer := { gen := 0, alive := true, schedules := ["/w/g".toList] },
    watched_paths := ["/w/g".toList] }

theorem watch_directory_dedup_witness :
    validate_path "/w".toList "/w/g".toList = Except.ok "/w/g".toList ∧
    fsThere.pathExists "/w/g".toList = true ∧
    ((watchedState.observer.alive = true →
        "/w/g".toList ∈ watchedState.watched_paths →
        watch_directory "/w".toList fsThere watchedState "/w/g".toList
          = Except.ok (watchedState, "Already watching ".toList ++ "/w/g".toList)) ∧
     (watchedState.observer.alive = false →
        watch_directory "/w".toList fsThere watchedState "/w/g".toList
          = Except.ok
              ({ observer := { gen := watchedState.observer.gen + 1, alive := true,
                               schedules := ["/w/g".toList] },
                 watched_paths := ["/w/g".toList] },
               "Started watching ".toList ++ "/w/g".toList
                 ++ " for changes.".toList))) :=
  ⟨rfl, rfl,
   watch_directory_dedup "/w".toList fsThere watchedState
     "/w/g".toList "/w/g".toList rfl rfl⟩

def fsGone : FileSys :=
  ⟨fun _ => false, fun _ => ReadOutcome.decodeError, fun _ => 0, fun _ => []⟩

/-- C10 counterexample: a root that is in the watched set with the shared
watcher alive, but whose directory no longer exists on disk, gets the
"Error: Path ... does not exist." report rather than "Already watching"
(the existence check runs before the dedup check), so the claim as stated
fails for such roots. -/
theorem watch_directory_gone_counterexample :
    watchedState.observer.alive = true ∧
    "/w/g".toList ∈ watchedState.watched_paths ∧
    watch_directory "/w".toList fsGone watchedState "/w/g".toList
      = Except.ok (watchedState, "Error: Path /w/g does not exist.".toList) ∧
    "Error: Path /w/g does not exist.".toList
      ≠ "Already watching ".toList ++ "/w/g".toList := by
  refine ⟨rfl, by simp [watchedState], rfl, by decide⟩
